import Mathlib

/-!
Verification development for the `zip2gif` batch converter (`app.py`).

The program is a single-file pipeline: it recursively discovers `.zip`
archives under a root folder, and for each archive (in a bounded thread
pool) it extracts the archive to a scratch directory, collects the
contained JPEG files, sorts them by path string, decodes them, and encodes
them into an animated GIF next to the archive, classifying the result as
one of success / skip / warning / error.  The coordinator drains the
per-archive outcomes and prints a tally.

The shallow embedding below models:
  * `find_ms_in_filename` — the `re.search` of the pattern `@(\d+)ms`
    followed by `int(...)`, modelled exactly (leftmost match; the digit
    run after `@` must be maximal because a digit can never be followed
    by the literal `m` while digits remain, so backtracking never picks a
    shorter run).  Python's `\d` on a `str` pattern matches every
    Unicode decimal digit (category Nd), not just ASCII `0-9`, and
    `int(...)` parses them by their decimal values; the model carries
    the Nd table (`ndDigitStarts`) to reproduce this;
  * the path helpers `os.path.basename`, `os.path.dirname`,
    `os.path.splitext` (its root part) and `os.path.join` (POSIX rules,
    two arguments, as used by the program);
  * `process_zip_file` — the per-archive processor.  All interaction with
    the outside world (existence check of the output file, temp-dir
    creation, archive extraction, the `os.walk` enumeration, `Image.open`,
    `Image.save`) is abstracted into an environment record `Env`; a raised
    Python exception is an `Except.error`.  The processor returns the
    outcome tuple together with a trace recording whether extraction was
    reached, which files were handed to the decoder, and the exact
    argument list of every `save` (encode) call;
  * the result-draining loop of `process_folder` including its tally and
    its printed lines, and the worker-count computation
    `min(os.cpu_count() or 4, 10, num_files)`.

String comparison: Python sorts `str` values by code points; Lean's
built-in `String` order does not reduce well in the kernel, so the model
carries its own code-point lexicographic comparison `strLe`, which agrees
with Python's `list.sort()` on strings.  Python's `str.lower` is modelled
by the ASCII `Char.toLower` (the program only lowercases file-name
extensions, where the two coincide).
-/

/-- Start code points of the Unicode decimal-digit runs: the
category-Nd characters come in contiguous runs of ten (digit values
0 through 9), and this table lists the code point of each run's zero
digit (Unicode 14.0, the database of the CPython whose `re` and `int`
the program uses).  Python's `\d` on a `str` pattern matches exactly
the characters of these runs. -/
def ndDigitStarts : List Nat :=
  [0x0030, 0x0660, 0x06F0, 0x07C0, 0x0966, 0x09E6, 0x0A66, 0x0AE6,
   0x0B66, 0x0BE6, 0x0C66, 0x0CE6, 0x0D66, 0x0DE6, 0x0E50, 0x0ED0,
   0x0F20, 0x1040, 0x1090, 0x17E0, 0x1810, 0x1946, 0x19D0, 0x1A80,
   0x1A90, 0x1B50, 0x1BB0, 0x1C40, 0x1C50, 0xA620, 0xA8D0, 0xA900,
   0xA9D0, 0xA9F0, 0xAA50, 0xABF0, 0xFF10, 0x104A0, 0x10D30, 0x11066,
   0x110F0, 0x11136, 0x111D0, 0x112F0, 0x11450, 0x114D0, 0x11650,
   0x116C0, 0x11730, 0x118E0, 0x11950, 0x11C50, 0x11D50, 0x11DA0,
   0x16A60, 0x16AC0, 0x16B50, 0x1D7CE, 0x1D7D8, 0x1D7E2, 0x1D7EC,
   0x1D7F6, 0x1E140, 0x1E2F0, 0x1E950, 0x1FBF0]

/-- Python's `\d` digit test on a `str`: membership in the Unicode
decimal-digit category Nd, i.e. in one of the runs of ten recorded in
`ndDigitStarts`. -/
def isDigitNd (c : Char) : Bool :=
  ndDigitStarts.any (fun s => s ≤ c.toNat ∧ c.toNat ≤ s + 9)

/-- The decimal value of a digit character (`unicodedata.decimal`): its
offset within its run of ten.  Zero for non-digits (never reached: the
parser below is only applied to `\d`-matched characters). -/
def ndDigitVal (c : Char) : Nat :=
  match ndDigitStarts.find? (fun s => s ≤ c.toNat ∧ c.toNat ≤ s + 9) with
  | some s => c.toNat - s
  | none => 0

/-- Decimal digit run parser: `int(...)` applied to a digit string
(most significant digit first), as Python parses the captured group —
each character contributes its Unicode decimal value. -/
def parseDigits (ds : List Char) : Nat :=
  ds.foldl (fun a c => a * 10 + ndDigitVal c) 0

/-- One attempted match of the regex `@(\d+)ms` anchored at the head of
`l`: succeeds iff `l` starts with `@`, followed by a nonempty maximal
digit run, followed by `ms`; returns the captured digit run.  (A shorter,
non-maximal digit run can never be followed by `m`, so this is exactly
the regex engine's behaviour at this position.) -/
def msMatchAt (l : List Char) : Option (List Char) :=
  match l with
  | [] => none
  | c :: rest =>
    if c = '@' ∧ rest.takeWhile isDigitNd ≠ [] ∧
        (rest.dropWhile isDigitNd).take 2 = ['m', 's'] then
      some (rest.takeWhile isDigitNd)
    else
      none

/-- `re.search(r'@(\d+)ms', s)`: try the pattern at every position, left
to right, returning the captured group of the leftmost match. -/
def reSearchMs : List Char → Option (List Char)
  | [] => none
  | c :: cs =>
    match msMatchAt (c :: cs) with
    | some ds => some ds
    | none => reSearchMs cs

/-- `find_ms_in_filename` from `app.py`: extract the millisecond interval
from a file name, defaulting to 40 when the pattern is absent. -/
def find_ms_in_filename (filename : String) : Nat :=
  match reSearchMs filename.data with
  | some ds => parseDigits ds
  | none => 40

/-- Spec-side description of "the file name contains a substring of the
form `@<digits>ms`": a decomposition of the character list around one
occurrence.  `pre` is everything before the `@`, `ds` the digit group
(decimal digits in the sense of the code's `\d`, i.e. Unicode Nd),
`post` everything after the literal `ms`. -/
def MsDecomp (s pre ds post : List Char) : Prop :=
  s = pre ++ '@' :: (ds ++ 'm' :: 's' :: post) ∧ ds ≠ [] ∧
    ∀ c ∈ ds, isDigitNd c = true

/-- Executable scan deciding whether some `@<digits>ms` occurrence has a
digit group parsing to a positive integer (used to evaluate the spec's
"N is a positive integer" side condition on concrete file names). -/
def posMsScan : List Char → Bool
  | [] => false
  | c :: cs =>
    (match msMatchAt (c :: cs) with
     | some ds => decide (0 < parseDigits ds)
     | none => false) || posMsScan cs

/-- Code-point comparison of strings, as Python's `str` order
(lexicographic on code points, a prefix sorts before its extensions). -/
def lexLe : List Char → List Char → Bool
  | [], _ => true
  | _ :: _, [] => false
  | a :: as, b :: bs =>
    if a.toNat < b.toNat then true
    else if b.toNat < a.toNat then false
    else lexLe as bs

/-- String comparison used by `jpg_files.sort()`. -/
def strLe (a b : String) : Bool :=
  lexLe a.data b.data

/-- `os.path.basename` (POSIX): the characters after the last `/`. -/
def basenameStr (p : String) : String :=
  String.mk ((p.data.reverse.takeWhile (fun c => c ≠ '/')).reverse)

/-- `os.path.dirname` (POSIX): everything through the last `/`, with
trailing slashes stripped unless the head consists only of slashes. -/
def dirnameStr (p : String) : String :=
  let rh := p.data.reverse.dropWhile (fun c => c ≠ '/')
  if rh.all (fun c => c = '/') then String.mk rh.reverse
  else String.mk ((rh.dropWhile (fun c => c = '/')).reverse)

/-- Root part of `os.path.splitext` applied to a base file name (no `/`
inside): split at the last dot, unless every character before that dot is
itself a dot (so `.bashrc`-style names keep their extension). -/
def splitextRootL (b : List Char) : List Char :=
  match b.reverse.dropWhile (fun c => c ≠ '.') with
  | [] => b
  | _ :: rbefore => if rbefore.all (fun c => c = '.') then b else rbefore.reverse

/-- `os.path.join` (POSIX, two arguments): an absolute second component
wins; otherwise insert a `/` unless the first component is empty or
already ends with one. -/
def joinPath (a b : String) : String :=
  if b.data.head? = some '/' then b
  else if a = "" ∨ a.data.getLast? = some '/' then a ++ b
  else a ++ "/" ++ b

/-- The computed output path of `process_zip_file`:
`os.path.join(os.path.dirname(zip_path), splitext(basename(zip_path))[0] + ".gif")`. -/
def gifPathOf (zip_path : String) : String :=
  joinPath (dirnameStr zip_path)
    (String.mk (splitextRootL (basenameStr zip_path).data) ++ ".gif")

/-- `file.lower().endswith(('.jpg', '.jpeg'))` (ASCII lowering). -/
def isJpegName (file : String) : Bool :=
  let low := file.data.map Char.toLower
  List.isSuffixOf ".jpg".data low || List.isSuffixOf ".jpeg".data low

/-- Outcome classification of one archive, the second tuple component of
`process_zip_file`'s return value. -/
inductive Status where
  | success
  | skip
  | warning
  | error
  deriving DecidableEq

/-- The tuple `(zip_path, status, message)` returned by `process_zip_file`. -/
structure Outcome where
  zipPath : String
  status : Status
  message : String
  deriving DecidableEq

/-- The argument list of one `images[0].save(...)` call: the anchoring
image, the destination path, the appended images (in order), and the
`duration` / `loop` / `disposal` keyword arguments.  `α` is the abstract
type of decoded images. -/
structure SaveCall (α : Type) where
  anchor : α
  path : String
  append_images : List α
  duration : Nat
  loop : Nat
  disposal : Nat
  deriving DecidableEq

/-- Observable effects of one `process_zip_file` invocation: every encode
call issued, whether archive extraction was reached, and the files handed
to `Image.open` (in order, ending with the first failing one if any). -/
structure Trace (α : Type) where
  saves : List (SaveCall α)
  extracted : Bool
  decoded : List String
  deriving DecidableEq

/-- Per-archive environment: the world as seen by one `process_zip_file`
call.  A Python exception raised by a step is an `Except.error` carrying
`str(e)`.  `walk` is the `os.walk` enumeration of the extraction
directory flattened to `(root, file)` pairs in visit order. -/
structure Env (α : Type) where
  pathExists : String → Bool
  tmpdir : Except String Unit
  extract : Except String Unit
  walk : List (String × String)
  decode : String → Except String α
  save : SaveCall α → Except String Unit

/-- The `jpg_files` list of `process_zip_file`: every walked file whose
lowered name ends in `.jpg`/`.jpeg`, joined to its root, in walk order. -/
def jpgFiles {α : Type} (env : Env α) : List String :=
  (env.walk.filter fun rf => isJpegName rf.2).map fun rf => joinPath rf.1 rf.2

/-- The `jpg_files` list after `jpg_files.sort()` (Python sorts strings
ascending by code points; equal strings are identical, so the sorted
list is unique and any correct sort realises it — an insertion sort is
used here because it evaluates inside the kernel). -/
def sortedJpg {α : Type} (env : Env α) : List String :=
  (jpgFiles env).insertionSort (fun a b => strLe a b = true)

/-- The `Image.open` loop: decode files in order, returning the decoded
images, or the first failing file with its error; also returns the list
of files on which a decode was attempted. -/
def openImages {α : Type} (decode : String → Except String α) :
    List String → List String × Except (String × String) (List α)
  | [] => ([], Except.ok [])
  | f :: fs =>
    match decode f with
    | Except.error e => ([f], Except.error (f, e))
    | Except.ok img =>
      let r := openImages decode fs
      (f :: r.1, r.2.map fun imgs => img :: imgs)

/-- Body of the `try:` block of `process_zip_file`.  An `Except.error`
result is an exception reaching the `except Exception` boundary. -/
def process_zip_inner {α : Type} (env : Env α) (zip_path : String) :
    Except String Outcome × Trace α :=
  let gif_path := gifPathOf zip_path
  if env.pathExists gif_path then
    (Except.ok ⟨zip_path, Status.skip, "对应的GIF已存在"⟩, ⟨[], false, []⟩)
  else
    let ms_duration := find_ms_in_filename (basenameStr zip_path)
    match env.tmpdir with
    | Except.error e => (Except.error e, ⟨[], false, []⟩)
    | Except.ok _ =>
      match env.extract with
      | Except.error e => (Except.error e, ⟨[], true, []⟩)
      | Except.ok _ =>
        if (jpgFiles env).isEmpty then
          (Except.ok ⟨zip_path, Status.warning, "没有找到JPG文件"⟩, ⟨[], true, []⟩)
        else
          let opened := openImages env.decode (sortedJpg env)
          match opened.2 with
          | Except.error fe =>
            (Except.ok ⟨zip_path, Status.error,
              "无法处理图像 " ++ fe.1 ++ ": " ++ fe.2⟩, ⟨[], true, opened.1⟩)
          | Except.ok images =>
            match images with
            | [] =>
              (Except.ok ⟨zip_path, Status.warning, "没有可用的图像"⟩,
                ⟨[], true, opened.1⟩)
            | img0 :: rest =>
              let call : SaveCall α :=
                ⟨img0, gif_path, rest, ms_duration, 0, 2⟩
              match env.save call with
              | Except.error e => (Except.error e, ⟨[call], true, opened.1⟩)
              | Except.ok _ =>
                (Except.ok ⟨zip_path, Status.success, gif_path⟩,
                  ⟨[call], true, opened.1⟩)

/-- `process_zip_file`: the inner body with its `except Exception`
handler, which converts any raised exception into an error outcome
carrying the exception text. -/
def process_zip_file {α : Type} (env : Env α) (zip_path : String) :
    Outcome × Trace α :=
  let r := process_zip_inner env zip_path
  match r.1 with
  | Except.ok o => (o, r.2)
  | Except.error e => (⟨zip_path, Status.error, e⟩, r.2)

/-- The mutable counters of `process_folder`. -/
structure Tally where
  processed : Nat
  skipped : Nat
  errors : Nat
  deriving DecidableEq

/-- The per-item line printed by the draining loop of `process_folder`
for one completed future (`none` for a silent skip).  An `Except.error`
is an exception raised out of `future.result()`. -/
def lineFor (zip_path : String) (r : Except String Outcome) : Option String :=
  match r with
  | Except.ok o =>
    match o.status with
    | Status.success => some ("✓ 已生成: " ++ o.message)
    | Status.skip => none
    | Status.warning => some ("⚠️ 警告: " ++ zip_path ++ " - " ++ o.message)
    | Status.error => some ("✗ 处理 " ++ zip_path ++ " 时出错: " ++ o.message)
  | Except.error e => some ("✗ 处理 " ++ zip_path ++ " 时发生未知错误: " ++ e)

/-- The counter update of the draining loop for one completed future. -/
def tallyFor (t : Tally) (r : Except String Outcome) : Tally :=
  match r with
  | Except.ok o =>
    match o.status with
    | Status.success => { t with processed := t.processed + 1 }
    | Status.skip => { t with skipped := t.skipped + 1 }
    | Status.warning => t
    | Status.error => { t with errors := t.errors + 1 }
  | Except.error _ => { t with errors := t.errors + 1 }

/-- The `for future in as_completed(futures):` loop: fold the tally over
the completed results (in completion order) and collect the printed
per-item lines, in order. -/
def drainLoop (t : Tally) : List (String × Except String Outcome) → Tally × List String
  | [] => (t, [])
  | (zp, r) :: rest =>
    let next := drainLoop (tallyFor t r) rest
    (next.1, (lineFor zp r).toList ++ next.2)

/-- The four-line final report of `process_folder`. -/
def summaryLines (total : Nat) (t : Tally) : List String :=
  ["\n处理完成: 共处理 " ++ toString total ++ " 个文件",
   "✓ 成功: " ++ toString t.processed,
   "↺ 跳过: " ++ toString t.skipped,
   "✗ 失败: " ++ toString t.errors]

/-- Everything `process_folder` prints after submitting the work, given
the discovered archive list and the stream of completed results: the
per-item lines followed by the final tally block. -/
def process_folder_report (zip_files : List String)
    (completed : List (String × Except String Outcome)) : Tally × List String :=
  let d := drainLoop ⟨0, 0, 0⟩ completed
  (d.1, d.2 ++ summaryLines zip_files.length d.1)

/-- The completed-result stream of a run in which every worker returns
normally: each archive paired with its `process_zip_file` outcome, listed
in completion order `order`. -/
def runAll {α : Type} (envOf : String → Env α) (order : List String) :
    List (String × Except String Outcome) :=
  order.map fun z => (z, Except.ok (process_zip_file (envOf z) z).1)

/-- Python's `os.cpu_count() or 4`: `None` and `0` are falsy. -/
def cpu_count_or_4 : Option Nat → Nat
  | none => 4
  | some c => if c = 0 then 4 else c

/-- The automatic worker count of `process_folder`:
`min(os.cpu_count() or 4, 10, num_files)`. -/
def default_max_workers (cpu : Option Nat) (num_files : Nat) : Nat :=
  min (min (cpu_count_or_4 cpu) 10) num_files

/-- The effective `max_workers`: the override if given, otherwise the
automatic sizing. -/
def max_workers_of (override : Option Nat) (cpu : Option Nat) (num_files : Nat) : Nat :=
  match override with
  | some w => w
  | none => default_max_workers cpu num_files

/-- Environment whose temporary-directory creation raises (`"boom"`). -/
def envRaise : Env Nat :=
  ⟨fun _ => false, Except.error "boom", Except.ok (), [],
   fun _ => Except.error "x", fun _ => Except.ok ()⟩

/-- Environment with one extracted JPEG whose decode fails. -/
def envBadDecode : Env Nat :=
  ⟨fun _ => false, Except.ok (), Except.ok (), [("t", "a.jpg")],
   fun _ => Except.error "bad", fun _ => Except.ok ()⟩

/-- Environment with two extracted JPEGs (listed out of order by the
walk) that all decode; the decoded image of a path is its length. -/
def envHappy : Env Nat :=
  ⟨fun _ => false, Except.ok (), Except.ok (), [("t", "b.jpg"), ("t", "a.jpg")],
   fun f => Except.ok f.length, fun _ => Except.ok ()⟩

/-- Environment whose extraction yields no files at all. -/
def envEmpty : Env Nat :=
  ⟨fun _ => false, Except.ok (), Except.ok (), [],
   fun _ => Except.error "bad", fun _ => Except.ok ()⟩

/-- Environment in which the output GIF already exists. -/
def envGifThere : Env Nat :=
  ⟨fun _ => true, Except.ok (), Except.ok (), [],
   fun _ => Except.error "x", fun _ => Except.ok ()⟩

/-- A digit run followed by `ms` spans exactly the run: `takeWhile` keeps
it and `dropWhile` stops at the `m`. -/
theorem digit_span (ds post : List Char) (h : ∀ c ∈ ds, isDigitNd c = true) :
    (ds ++ 'm' :: 's' :: post).takeWhile isDigitNd = ds ∧
    (ds ++ 'm' :: 's' :: post).dropWhile isDigitNd = 'm' :: 's' :: post := by
  induction ds with
  | nil =>
    have hm : isDigitNd 'm' = false := by decide
    constructor
    · simp [List.takeWhile_cons, hm]
    · simp [List.dropWhile_cons, hm]
  | cons c cs ih =>
    have hc : isDigitNd c = true := h c (List.mem_cons_self c cs)
    have hcs : ∀ x ∈ cs, isDigitNd x = true := fun x hx => h x (List.mem_cons_of_mem c hx)
    obtain ⟨h1, h2⟩ := ih hcs
    constructor
    · simp [List.takeWhile_cons, hc, h1]
    · simp [List.dropWhile_cons, hc, h2]

/-- A successful anchored match is exactly a decomposition at this
position: `@`, the captured nonempty digit run, then `ms`. -/
theorem msMatchAt_some {l ds : List Char} (h : msMatchAt l = some ds) :
    ∃ post, l = '@' :: (ds ++ 'm' :: 's' :: post) ∧ ds ≠ [] ∧
      ∀ c ∈ ds, isDigitNd c = true := by
  match l with
  | [] => simp [msMatchAt] at h
  | c :: rest =>
    rw [msMatchAt] at h
    split at h
    · rename_i hcond
      obtain ⟨hc, hne, htake⟩ := hcond
      injection h with h
      subst h
      subst hc
      refine ⟨(rest.dropWhile isDigitNd).drop 2, ?_, hne, ?_⟩
      · have e2 : rest.dropWhile isDigitNd =
            'm' :: 's' :: (rest.dropWhile isDigitNd).drop 2 := by
          have e0 := List.take_append_drop 2 (rest.dropWhile isDigitNd)
          rw [htake] at e0
          exact e0.symm
        have e3 : rest.takeWhile isDigitNd ++
            ('m' :: 's' :: (rest.dropWhile isDigitNd).drop 2) = rest := by
          rw [← e2]
          exact List.takeWhile_append_dropWhile isDigitNd rest
        rw [e3]
      · intro x hx
        exact List.mem_takeWhile_imp hx
    · cases h

/-- Conversely, a decomposition at the head of the list makes the
anchored match succeed with the decomposition's digit run. -/
theorem msMatchAt_decomp (ds post : List Char) (hne : ds ≠ [])
    (hd : ∀ c ∈ ds, isDigitNd c = true) :
    msMatchAt ('@' :: (ds ++ 'm' :: 's' :: post)) = some ds := by
  obtain ⟨h1, h2⟩ := digit_span ds post hd
  rw [msMatchAt]
  rw [if_pos]
  · rw [h1]
  · refine ⟨rfl, ?_, ?_⟩
    · rw [h1]; exact hne
    · rw [h2]; rfl

/-- A successful search produces some decomposition of the string. -/
theorem reSearchMs_some {s ds : List Char} (h : reSearchMs s = some ds) :
    ∃ pre post, MsDecomp s pre ds post := by
  induction s with
  | nil => simp [reSearchMs] at h
  | cons c cs ih =>
    rw [reSearchMs] at h
    cases hm : msMatchAt (c :: cs) with
    | some ds0 =>
      rw [hm] at h
      injection h with h
      subst h
      obtain ⟨post, he, hne, hd⟩ := msMatchAt_some hm
      exact ⟨[], post, by rw [List.nil_append]; exact he, hne, hd⟩
    | none =>
      rw [hm] at h
      obtain ⟨pre, post, he, hne, hd⟩ := ih h
      exact ⟨c :: pre, post, by rw [List.cons_append, he], hne, hd⟩

/-- If the anchored match fails at the head, no decomposition has an
empty prefix. -/
theorem msMatchAt_none_no_head {c : Char} {cs ds post : List Char}
    (hm : msMatchAt (c :: cs) = none) (hdec : MsDecomp (c :: cs) [] ds post) :
    False := by
  obtain ⟨he, hne, hd⟩ := hdec
  rw [List.nil_append] at he
  rw [he, msMatchAt_decomp ds post hne hd] at hm
  cases hm

/-- When the string contains at least one `@<digits>ms` occurrence, the
search finds the leftmost one: its prefix length is minimal and the
returned digit run is that occurrence's. -/
theorem reSearchMs_min {s : List Char}
    (h : ∃ pre ds post, MsDecomp s pre ds post) :
    ∃ pre ds post, MsDecomp s pre ds post ∧
      (∀ pre2 ds2 post2, MsDecomp s pre2 ds2 post2 → pre.length ≤ pre2.length) ∧
      reSearchMs s = some ds := by
  induction s with
  | nil =>
    obtain ⟨pre, ds, post, he, hne, hd⟩ := h
    exact absurd he (by simp)
  | cons c cs ih =>
    cases hm : msMatchAt (c :: cs) with
    | some ds0 =>
      obtain ⟨post0, he0, hne0, hd0⟩ := msMatchAt_some hm
      refine ⟨[], ds0, post0, ⟨by rw [List.nil_append]; exact he0, hne0, hd0⟩, ?_, ?_⟩
      · intro pre2 ds2 post2 _
        exact Nat.zero_le _
      · rw [reSearchMs, hm]
    | none =>
      obtain ⟨pre, ds, post, hdec⟩ := h
      match pre, hdec with
      | [], hdec => exact absurd hdec (fun hd => msMatchAt_none_no_head hm hd)
      | q :: pre', hdec =>
        obtain ⟨he, hne, hd⟩ := hdec
        rw [List.cons_append] at he
        injection he with hq he
        have hcs : ∃ pre2 ds2 post2, MsDecomp cs pre2 ds2 post2 :=
          ⟨pre', ds, post, he, hne, hd⟩
        obtain ⟨pre1, ds1, post1, hdec1, hmin1, hs1⟩ := ih hcs
        refine ⟨c :: pre1, ds1, post1,
          ⟨by rw [List.cons_append, hdec1.1], hdec1.2.1, hdec1.2.2⟩, ?_, ?_⟩
        · intro pre2 ds2 post2 hdec2
          match pre2, hdec2 with
          | [], hdec2 => exact absurd hdec2 (fun hd2 => msMatchAt_none_no_head hm hd2)
          | r :: pre2', hdec2 =>
            obtain ⟨he2, hne2, hd2⟩ := hdec2
            rw [List.cons_append] at he2
            injection he2 with hr he2
            have := hmin1 pre2' ds2 post2 ⟨he2, hne2, hd2⟩
            simpa [List.length_cons] using Nat.succ_le_succ this
        · rw [reSearchMs, hm, hs1]

/-- A failed search means the string contains no `@<digits>ms`
occurrence at all. -/
theorem reSearchMs_none {s : List Char} (h : reSearchMs s = none) :
    ∀ pre ds post, ¬ MsDecomp s pre ds post := by
  intro pre ds post hdec
  obtain ⟨_, ds1, _, _, _, hs⟩ := reSearchMs_min ⟨pre, ds, post, hdec⟩
  rw [h] at hs
  cases hs

/-- The executable positivity scan agrees with the spec-side existential:
some `@<digits>ms` occurrence whose digit group parses to a positive
integer. -/
theorem posMsScan_iff {s : List Char} :
    posMsScan s = true ↔
      ∃ pre ds post, MsDecomp s pre ds post ∧ 0 < parseDigits ds := by
  induction s with
  | nil =>
    simp only [posMsScan, Bool.false_eq_true, false_iff]
    rintro ⟨pre, ds, post, ⟨he, -, -⟩, -⟩
    exact absurd he (by simp)
  | cons c cs ih =>
    rw [posMsScan]
    constructor
    · intro h
      rcases Bool.or_eq_true_iff.mp h with h1 | h2
      · cases hm : msMatchAt (c :: cs) with
        | some ds0 =>
          rw [hm] at h1
          have hpos : 0 < parseDigits ds0 := of_decide_eq_true h1
          obtain ⟨post0, he0, hne0, hd0⟩ := msMatchAt_some hm
          exact ⟨[], ds0, post0, ⟨by rw [List.nil_append]; exact he0, hne0, hd0⟩, hpos⟩
        | none =>
          rw [hm] at h1
          cases h1
      · obtain ⟨pre, ds, post, hdec, hpos⟩ := ih.mp h2
        exact ⟨c :: pre, ds, post,
          ⟨by rw [List.cons_append, hdec.1], hdec.2.1, hdec.2.2⟩, hpos⟩
    · rintro ⟨pre, ds, post, hdec, hpos⟩
      match pre, hdec with
      | [], hdec =>
        obtain ⟨he, hne, hd⟩ := hdec
        rw [List.nil_append] at he
        rw [he, msMatchAt_decomp ds post hne hd]
        simp [hpos]
      | q :: pre', hdec =>
        obtain ⟨he, hne, hd⟩ := hdec
        rw [List.cons_append] at he
        injection he with hq he
        have := ih.mpr ⟨pre', ds, post, ⟨he, hne, hd⟩, hpos⟩
        rw [this]
        simp

/-- C2, counterexample.  The file name `"@0ms"` contains no substring
`@<N>ms` with N a positive integer (the scan for such a substring is
`false`; `posMsScan_iff` equates the scan with the spec-side
existential), so the claim requires the extractor to return the default
40; the code returns `int("0") = 0` instead, because the regex
`@(\d+)ms` also matches a zero digit group. -/
theorem find_ms_zero_pattern_counterexample :
    posMsScan ("@0ms").data = false ∧ find_ms_in_filename "@0ms" = 0 ∧
      find_ms_in_filename "@0ms" ≠ 40 := by
  refine ⟨by decide, by decide, by decide⟩

/-- C2, amended.  For every file name containing at least one substring
`@<digits>ms` (digits nonempty, any value, zero included), the extractor
returns the integer parsed from the digit group of the leftmost such
substring; for every file name containing none, it returns the default
40.  It is a pure total function. -/
theorem find_ms_leftmost_or_default (s : String) :
    ((∃ pre ds post, MsDecomp s.data pre ds post) →
      ∃ pre ds post, MsDecomp s.data pre ds post ∧
        (∀ pre2 ds2 post2, MsDecomp s.data pre2 ds2 post2 →
          pre.length ≤ pre2.length) ∧
        find_ms_in_filename s = parseDigits ds) ∧
    ((∀ pre ds post, ¬ MsDecomp s.data pre ds post) →
      find_ms_in_filename s = 40) := by
  constructor
  · intro h
    obtain ⟨pre, ds, post, hdec, hmin, hs⟩ := reSearchMs_min h
    exact ⟨pre, ds, post, hdec, hmin, by rw [find_ms_in_filename, hs]⟩
  · intro h
    rw [find_ms_in_filename]
    cases hs : reSearchMs s.data with
    | some ds =>
      obtain ⟨pre, post, hdec⟩ := reSearchMs_some hs
      exact absurd hdec (h pre ds post)
    | none => rfl

/-- C2, witness: `"a@12ms"` contains the pattern and yields 12 (the
parse of its leftmost digit group); `"@٣ms"`, whose digit group is the
Arabic-Indic digit three (U+0663), also matches and yields 3, as
Python's `\d`/`int(...)` do; `"abc"` contains none and yields the
default 40. -/
theorem find_ms_leftmost_or_default_witness :
    (∃ pre ds post, MsDecomp ("a@12ms").data pre ds post ∧
      (∀ pre2 ds2 post2, MsDecomp ("a@12ms").data pre2 ds2 post2 →
        pre.length ≤ pre2.length) ∧
      find_ms_in_filename "a@12ms" = parseDigits ds) ∧
    (∃ pre ds post, MsDecomp ("@٣ms").data pre ds post ∧
      (∀ pre2 ds2 post2, MsDecomp ("@٣ms").data pre2 ds2 post2 →
        pre.length ≤ pre2.length) ∧
      find_ms_in_filename "@٣ms" = parseDigits ds) ∧
    find_ms_in_filename "@٣ms" = 3 ∧
    find_ms_in_filename "abc" = 40 :=
  ⟨(find_ms_leftmost_or_default "a@12ms").1
      ⟨['a'], ['1', '2'], [], by decide, by decide, by decide⟩,
    (find_ms_leftmost_or_default "@٣ms").1
      ⟨[], ['٣'], [], by decide, by decide, by decide⟩,
    by decide,
    (find_ms_leftmost_or_default "abc").2 (reSearchMs_none (by decide))⟩

/-- C9, counterexample.  For the archive path `"dir/x@0ms.zip"` the
computed frame duration is `0`, which is not a positive integer: the
claimed invariant fails.  The same happens for a zero written with the
Arabic-Indic digit zero (U+0660), which Python's `\d` also matches. -/
theorem frame_duration_zero_counterexample :
    basenameStr "dir/x@0ms.zip" = "x@0ms.zip" ∧
      find_ms_in_filename (basenameStr "dir/x@0ms.zip") = 0 ∧
      find_ms_in_filename (basenameStr "dir/x@٠ms.zip") = 0 := by
  refine ⟨by decide, by decide, by decide⟩

/-- C9, amended.  For every archive path, the frame duration computed
from its base name is positive unless the base name's leftmost
`@<digits>ms` match has a digit group parsing to zero, in which case the
duration is zero. -/
theorem frame_duration_positive_unless_zero_match (zip_path : String) :
    0 < find_ms_in_filename (basenameStr zip_path) ∨
      (∃ ds, reSearchMs (basenameStr zip_path).data = some ds ∧
        parseDigits ds = 0 ∧
        find_ms_in_filename (basenameStr zip_path) = 0) := by
  cases hs : reSearchMs (basenameStr zip_path).data with
  | none =>
    left
    rw [find_ms_in_filename, hs]
    decide
  | some ds =>
    rcases Nat.eq_zero_or_pos (parseDigits ds) with h0 | hpos
    · right
      exact ⟨ds, rfl, h0, by rw [find_ms_in_filename, hs]; exact h0⟩
    · left
      rw [find_ms_in_filename, hs]
      exact hpos

/-- C10.  If a file name contains two `@<digits>ms` occurrences at
distinct positions, the extractor returns the integer parsed from the
digit group of the leftmost occurrence. -/
theorem find_ms_two_matches_leftmost (s : String)
    (pre1 ds1 post1 pre2 ds2 post2 : List Char)
    (h1 : MsDecomp s.data pre1 ds1 post1)
    (_h2 : MsDecomp s.data pre2 ds2 post2)
    (_hne : pre1.length ≠ pre2.length) :
    ∃ pre ds post, MsDecomp s.data pre ds post ∧
      (∀ pre3 ds3 post3, MsDecomp s.data pre3 ds3 post3 →
        pre.length ≤ pre3.length) ∧
      find_ms_in_filename s = parseDigits ds := by
  obtain ⟨pre, ds, post, hdec, hmin, hs⟩ := reSearchMs_min ⟨pre1, ds1, post1, h1⟩
  exact ⟨pre, ds, post, hdec, hmin, by rw [find_ms_in_filename, hs]⟩

/-- C10, witness: `"@٣ms@5ms"` has occurrences at positions 0 and 4 —
the leftmost digit group being the Arabic-Indic digit three (U+0663),
which Python's `\d` matches — and the extractor follows the leftmost
one, returning 3. -/
theorem find_ms_two_matches_leftmost_witness :
    (∃ pre ds post, MsDecomp ("@٣ms@5ms").data pre ds post ∧
      (∀ pre3 ds3 post3, MsDecomp ("@٣ms@5ms").data pre3 ds3 post3 →
        pre.length ≤ pre3.length) ∧
      find_ms_in_filename "@٣ms@5ms" = parseDigits ds) ∧
    find_ms_in_filename "@٣ms@5ms" = 3 :=
  ⟨find_ms_two_matches_leftmost "@٣ms@5ms"
      [] ['٣'] ['@', '5', 'm', 's'] ['@', '٣', 'm', 's'] ['5'] []
      ⟨by decide, by decide, by decide⟩ ⟨by decide, by decide, by decide⟩
      (by decide),
    by decide⟩

/-- C7, counterexample.  With 16 available cores and 12 archives and no
override, the code computes `min(16, 10, 12) = 10`, not the archive
count 12, although 12 is below the available parallelism: the claim's
"equals archiveCount when archiveCount is below availableParallelism"
clause fails. -/
theorem worker_sizing_counterexample :
    max_workers_of none (some 16) 12 = 10 ∧ 12 < 16 ∧ (10 : Nat) ≠ 12 := by
  refine ⟨by decide, by decide, by decide⟩

/-- C7, amended.  With no override, a positive core count and a nonempty
archive list, the effective worker count equals
`min(availableParallelism, 10, archiveCount)`, is at least 1 and at most
10; it equals the archive count when that count is below both the
available parallelism and 10, and equals 10 when both are at least 10. -/
theorem worker_sizing (cpu num_files : Nat) (hcpu : 0 < cpu)
    (hn : 0 < num_files) :
    max_workers_of none (some cpu) num_files = min (min cpu 10) num_files ∧
    1 ≤ max_workers_of none (some cpu) num_files ∧
    max_workers_of none (some cpu) num_files ≤ 10 ∧
    (num_files < cpu → num_files ≤ 10 →
      max_workers_of none (some cpu) num_files = num_files) ∧
    (10 ≤ cpu → 10 ≤ num_files →
      max_workers_of none (some cpu) num_files = 10) := by
  have hc : cpu_count_or_4 (some cpu) = cpu := by
    rw [cpu_count_or_4, if_neg]
    omega
  have he : max_workers_of none (some cpu) num_files =
      min (min cpu 10) num_files := by
    rw [max_workers_of, default_max_workers, hc]
  refine ⟨he, ?_, ?_, ?_, ?_⟩
  · rw [he]; omega
  · rw [he]; omega
  · intro h1 h2; rw [he]; omega
  · intro h1 h2; rw [he]; omega

/-- C7, witness: 4 cores and 2 archives give 2 workers; 16 cores and 20
archives cap at 10. -/
theorem worker_sizing_witness :
    max_workers_of none (some 4) 2 = min (min 4 10) 2 ∧
    max_workers_of none (some 4) 2 = 2 ∧
    max_workers_of none (some 16) 20 = 10 :=
  ⟨(worker_sizing 4 2 (by decide) (by decide)).1,
   (worker_sizing 4 2 (by decide) (by decide)).2.2.2.1 (by decide) (by decide),
   (worker_sizing 16 20 (by decide) (by decide)).2.2.2.2 (by decide) (by decide)⟩

/-- Exhaustive shape of the try-body result: either an exception, or a
normal return whose first tuple component is the processed archive's
path. -/
theorem inner_cases {α : Type} (env : Env α) (zip_path : String) :
    (∃ e, (process_zip_inner env zip_path).1 = Except.error e) ∨
    (∃ st msg, (process_zip_inner env zip_path).1 = Except.ok ⟨zip_path, st, msg⟩) := by
  simp only [process_zip_inner]
  split
  · exact Or.inr ⟨Status.skip, _, rfl⟩
  · split
    · exact Or.inl ⟨_, rfl⟩
    · split
      · exact Or.inl ⟨_, rfl⟩
      · split
        · exact Or.inr ⟨Status.warning, _, rfl⟩
        · split
          · exact Or.inr ⟨Status.error, _, rfl⟩
          · split
            · exact Or.inr ⟨Status.warning, _, rfl⟩
            · split
              · exact Or.inl ⟨_, rfl⟩
              · exact Or.inr ⟨Status.success, _, rfl⟩

/-- C1.  `process_zip_file` never lets an exception escape: its result
always carries the processed archive's path, and whenever the try-body
raises (an `Except.error` of the inner computation), the boundary
handler converts it into an error outcome carrying the exception text. -/
theorem process_zip_no_escape {α : Type} (env : Env α) (zip_path : String) :
    (process_zip_file env zip_path).1.zipPath = zip_path ∧
    ∀ e, (process_zip_inner env zip_path).1 = Except.error e →
      (process_zip_file env zip_path).1 = ⟨zip_path, Status.error, e⟩ := by
  constructor
  · rcases inner_cases env zip_path with ⟨e, he⟩ | ⟨st, msg, he⟩
    · simp [process_zip_file, he]
    · simp [process_zip_file, he]
  · intro e he
    simp [process_zip_file, he]

/-- C1, witness: an environment whose temp-dir creation raises `"boom"`
yields the error outcome `(path, error, "boom")`. -/
theorem process_zip_no_escape_witness :
    (process_zip_file envRaise "a.zip").1 = ⟨"a.zip", Status.error, "boom"⟩ :=
  (process_zip_no_escape envRaise "a.zip").2 "boom" rfl

/-- Closed form of the draining loop: starting from tally `t`, the final
counters add the counts of successes, skips, and errors-or-exceptions,
and the printed lines are exactly the per-item lines of the non-skip
results, in completion order. -/
theorem drainLoop_spec (completed : List (String × Except String Outcome))
    (t : Tally) :
    drainLoop t completed =
      (⟨t.processed + completed.countP (fun pr =>
          match pr.2 with
          | Except.ok o => decide (o.status = Status.success)
          | Except.error _ => false),
        t.skipped + completed.countP (fun pr =>
          match pr.2 with
          | Except.ok o => decide (o.status = Status.skip)
          | Except.error _ => false),
        t.errors + completed.countP (fun pr =>
          match pr.2 with
          | Except.ok o => decide (o.status = Status.error)
          | Except.error _ => true)⟩,
       completed.filterMap fun pr => lineFor pr.1 pr.2) := by
  induction completed generalizing t with
  | nil => simp [drainLoop]
  | cons hd tl ih =>
    obtain ⟨zp, r⟩ := hd
    rw [drainLoop, ih (tallyFor t r)]
    cases r with
    | error e =>
      simp [tallyFor, lineFor, List.countP_cons, List.filterMap_cons]
      omega
    | ok o =>
      obtain ⟨z0, st, msg⟩ := o
      cases st <;>
        simp [tallyFor, lineFor, List.countP_cons, List.filterMap_cons] <;>
        omega

/-- C8.  Draining the completed results (in any completion order): the
processed counter counts exactly the success outcomes, the skipped
counter exactly the skip outcomes, the error counter exactly the error
outcomes plus worker exceptions (warnings increment nothing); the
per-item lines are exactly the lines of the non-skip results (success,
warning and error are reported, skips are silent); the tally is
invariant under permuting the completion order; and the report ends with
the four-line final tally of total, succeeded, skipped and failed. -/
theorem tally_aggregation (zips : List String)
    (completed completed2 : List (String × Except String Outcome)) :
    (drainLoop ⟨0, 0, 0⟩ completed).1.processed = completed.countP (fun pr =>
        match pr.2 with
        | Except.ok o => decide (o.status = Status.success)
        | Except.error _ => false) ∧
    (drainLoop ⟨0, 0, 0⟩ completed).1.skipped = completed.countP (fun pr =>
        match pr.2 with
        | Except.ok o => decide (o.status = Status.skip)
        | Except.error _ => false) ∧
    (drainLoop ⟨0, 0, 0⟩ completed).1.errors = completed.countP (fun pr =>
        match pr.2 with
        | Except.ok o => decide (o.status = Status.error)
        | Except.error _ => true) ∧
    (drainLoop ⟨0, 0, 0⟩ completed).2 =
      completed.filterMap (fun pr => lineFor pr.1 pr.2) ∧
    (∀ zp z m, lineFor zp (Except.ok ⟨z, Status.skip, m⟩) = none) ∧
    (∀ zp z m, lineFor zp (Except.ok ⟨z, Status.success, m⟩) =
      some ("✓ 已生成: " ++ m)) ∧
    (∀ zp z m, lineFor zp (Except.ok ⟨z, Status.warning, m⟩) =
      some ("⚠️ 警告: " ++ zp ++ " - " ++ m)) ∧
    (∀ zp z m, lineFor zp (Except.ok ⟨z, Status.error, m⟩) =
      some ("✗ 处理 " ++ zp ++ " 时出错: " ++ m)) ∧
    (∀ zp e, lineFor zp (Except.error e) =
      some ("✗ 处理 " ++ zp ++ " 时发生未知错误: " ++ e)) ∧
    (completed.Perm completed2 →
      (drainLoop ⟨0, 0, 0⟩ completed).1 = (drainLoop ⟨0, 0, 0⟩ completed2).1) ∧
    (process_folder_report zips completed).2 =
      (drainLoop ⟨0, 0, 0⟩ completed).2 ++
        summaryLines zips.length (drainLoop ⟨0, 0, 0⟩ completed).1 := by
  have hs := drainLoop_spec completed ⟨0, 0, 0⟩
  have hs2 := drainLoop_spec completed2 ⟨0, 0, 0⟩
  refine ⟨by rw [hs]; simp, by rw [hs]; simp, by rw [hs]; simp, by rw [hs],
    fun zp z m => rfl, fun zp z m => rfl, fun zp z m => rfl,
    fun zp z m => rfl, fun zp e => rfl, ?_, rfl⟩
  intro hp
  rw [hs, hs2]
  simp only
  rw [hp.countP_eq, hp.countP_eq, hp.countP_eq]

/-- C8, witness: the tally of a success plus a worker exception is the
same in either completion order. -/
theorem tally_aggregation_witness :
    (drainLoop ⟨0, 0, 0⟩
      [("a.zip", Except.ok ⟨"a.zip", Status.success, "out.gif"⟩),
       ("b.zip", Except.error "boom")]).1 =
    (drainLoop ⟨0, 0, 0⟩
      [("b.zip", Except.error "boom"),
       ("a.zip", Except.ok ⟨"a.zip", Status.success, "out.gif"⟩)]).1 :=
  (tally_aggregation []
    [("a.zip", Except.ok ⟨"a.zip", Status.success, "out.gif"⟩),
     ("b.zip", Except.error "boom")]
    [("b.zip", Except.error "boom"),
     ("a.zip", Except.ok ⟨"a.zip", Status.success, "out.gif"⟩)]).2.2.2.2.2.2.2.2.2.1
    (List.Perm.swap _ _ _)

/-- `takeWhile` passes over a block that wholly satisfies the predicate. -/
theorem takeWhile_append_all {α : Type} (p : α → Bool) (l t : List α)
    (h : ∀ a ∈ l, p a = true) :
    (l ++ t).takeWhile p = l ++ t.takeWhile p := by
  induction l with
  | nil => rfl
  | cons c cs ih =>
    have hc : p c = true := h c (List.mem_cons_self c cs)
    rw [List.cons_append, List.takeWhile_cons, hc]
    simp only [if_true]
    rw [ih (fun x hx => h x (List.mem_cons_of_mem c hx))]
    rfl

/-- `dropWhile` passes over a block that wholly satisfies the predicate. -/
theorem dropWhile_append_all {α : Type} (p : α → Bool) (l t : List α)
    (h : ∀ a ∈ l, p a = true) :
    (l ++ t).dropWhile p = t.dropWhile p := by
  induction l with
  | nil => rfl
  | cons c cs ih =>
    have hc : p c = true := h c (List.mem_cons_self c cs)
    rw [List.cons_append, List.dropWhile_cons, hc]
    simp only [if_true]
    exact ih (fun x hx => h x (List.mem_cons_of_mem c hx))

/-- The code-point comparison is total. -/
theorem lexLe_total (a : List Char) : ∀ b, (lexLe a b || lexLe b a) = true := by
  induction a with
  | nil => intro b; simp [lexLe]
  | cons x xs ih =>
    intro b
    cases b with
    | nil => simp [lexLe]
    | cons y ys =>
      rw [lexLe, lexLe]
      by_cases h1 : x.toNat < y.toNat
      · simp [h1]
      · by_cases h2 : y.toNat < x.toNat
        · simp [h1, h2]
        · simp only [h1, h2, if_false]
          exact ih ys

/-- The code-point comparison is transitive. -/
theorem lexLe_trans (a : List Char) : ∀ b c, lexLe a b = true → lexLe b c = true →
    lexLe a c = true := by
  induction a with
  | nil => intro b c _ _; simp [lexLe]
  | cons x xs ih =>
    intro b c h1 h2
    cases b with
    | nil => rw [lexLe] at h1; cases h1
    | cons y ys =>
      cases c with
      | nil => rw [lexLe] at h2; cases h2
      | cons z zs =>
        rw [lexLe] at h1 h2 ⊢
        split_ifs at h1 h2 ⊢ <;>
          first
            | rfl
            | exact ih ys zs h1 h2
            | omega

/-- `strLe` is total. -/
theorem strLe_total (a b : String) : (strLe a b || strLe b a) = true :=
  lexLe_total a.data b.data

/-- `strLe` is transitive. -/
theorem strLe_trans (a b c : String) (h1 : strLe a b = true)
    (h2 : strLe b c = true) : strLe a c = true :=
  lexLe_trans a.data b.data c.data h1 h2

/-- The sorted file list is sorted under the code-point order. -/
theorem sortedJpg_sorted {α : Type} (env : Env α) :
    List.Sorted (fun a b => strLe a b = true) (sortedJpg env) :=
  @List.sorted_insertionSort String (fun a b => strLe a b = true) _
    ⟨fun a b => by
      rcases Bool.or_eq_true_iff.mp (strLe_total a b) with h | h
      · exact Or.inl h
      · exact Or.inr h⟩
    ⟨fun a b c h1 h2 => strLe_trans a b c h1 h2⟩
    (jpgFiles env)

/-- The sorted file list is a permutation of the discovered file list. -/
theorem sortedJpg_perm {α : Type} (env : Env α) :
    (sortedJpg env).Perm (jpgFiles env) :=
  List.perm_insertionSort (fun a b => strLe a b = true) (jpgFiles env)

/-- When every file decodes, the open loop attempts every file in order
and returns the pointwise-decoded image list. -/
theorem openImages_ok {α : Type} (decode : String → Except String α)
    (fs : List String) (h : ∀ f ∈ fs, ∃ img, decode f = Except.ok img) :
    ∃ imgs, openImages decode fs = (fs, Except.ok imgs) ∧
      List.Forall₂ (fun f img => decode f = Except.ok img) fs imgs := by
  induction fs with
  | nil => exact ⟨[], rfl, List.Forall₂.nil⟩
  | cons f fs ih =>
    obtain ⟨img, himg⟩ := h f (List.mem_cons_self f fs)
    obtain ⟨imgs, he, hf⟩ := ih (fun g hg => h g (List.mem_cons_of_mem f hg))
    refine ⟨img :: imgs, ?_, List.Forall₂.cons himg hf⟩
    simp [openImages, himg, he, Except.map]

/-- When some file fails to decode, the open loop stops at the first
failing file (every file before it decodes) and reports it with its
error. -/
theorem openImages_fail {α : Type} (decode : String → Except String α)
    (fs : List String) (h : ∃ f ∈ fs, ∃ e, decode f = Except.error e) :
    ∃ pre f e post, fs = pre ++ f :: post ∧
      (∀ g ∈ pre, ∃ img, decode g = Except.ok img) ∧
      decode f = Except.error e ∧
      (openImages decode fs).2 = Except.error (f, e) := by
  induction fs with
  | nil =>
    obtain ⟨f, hf, -⟩ := h
    cases hf
  | cons f0 fs ih =>
    cases hdec : decode f0 with
    | error e0 =>
      refine ⟨[], f0, e0, fs, rfl, ?_, hdec, ?_⟩
      · intro g hg
        cases hg
      · simp [openImages, hdec]
    | ok i0 =>
      have h2 : ∃ g ∈ fs, ∃ e, decode g = Except.error e := by
        obtain ⟨f, hf, e, he⟩ := h
        rcases List.mem_cons.mp hf with rfl | hf2
        · rw [hdec] at he
          cases he
        · exact ⟨f, hf2, e, he⟩
      obtain ⟨pre, f, e, post, heq, hpre, hfe, hopen⟩ := ih h2
      refine ⟨f0 :: pre, f, e, post, ?_, ?_, hfe, ?_⟩
      · rw [List.cons_append, heq]
      · intro g hg
        rcases List.mem_cons.mp hg with rfl | hg2
        · exact ⟨i0, hdec⟩
        · exact hpre g hg2
      · simp [openImages, hdec, hopen, Except.map]

/-- A nonempty discovered file list makes the `if not jpg_files:` test
false. -/
theorem jpgFiles_isEmpty_false {α : Type} (env : Env α)
    (hne : jpgFiles env ≠ []) : (jpgFiles env).isEmpty = false := by
  cases hjf : (jpgFiles env).isEmpty with
  | false => rfl
  | true => exact absurd (List.isEmpty_iff.mp hjf) hne

/-- A nonempty discovered file list sorts to a nonempty list. -/
theorem sortedJpg_ne_nil {α : Type} (env : Env α)
    (hne : jpgFiles env ≠ []) : sortedJpg env ≠ [] := by
  intro h0
  have hlen := (sortedJpg_perm env).length_eq
  rw [h0] at hlen
  exact hne (List.length_eq_zero.mp hlen.symm)

/-- C3.  For an archive whose discovered images all decode (output not
yet present, extraction succeeding, at least one image file found),
exactly one encode call is issued: it is anchored by the decoded image
of the lexicographically first path, the remaining decoded images are
appended in sorted order (the frame list corresponds pointwise to the
sorted path list), the destination is the computed output path, the
per-frame delay is the extracted duration, the loop count is 0 (loop
indefinitely) and the disposal mode is 2 (each frame fully replaces the
previous frame's content). -/
theorem encode_call_spec {α : Type} (env : Env α) (zip_path : String)
    (hex : env.pathExists (gifPathOf zip_path) = false)
    (htmp : env.tmpdir = Except.ok ())
    (hext : env.extract = Except.ok ())
    (hne : jpgFiles env ≠ [])
    (hdec : ∀ f ∈ sortedJpg env, ∃ img, env.decode f = Except.ok img) :
    ∃ call : SaveCall α,
      (process_zip_file env zip_path).2.saves = [call] ∧
      call.path = gifPathOf zip_path ∧
      call.duration = find_ms_in_filename (basenameStr zip_path) ∧
      call.loop = 0 ∧
      call.disposal = 2 ∧
      List.Forall₂ (fun f img => env.decode f = Except.ok img)
        (sortedJpg env) (call.anchor :: call.append_images) ∧
      List.Sorted (fun a b => strLe a b = true) (sortedJpg env) ∧
      (sortedJpg env).Perm (jpgFiles env) := by
  obtain ⟨imgs, hopen, hfa⟩ := openImages_ok env.decode (sortedJpg env) hdec
  have hie := jpgFiles_isEmpty_false env hne
  obtain ⟨f0, frest, hsort⟩ : ∃ f0 frest, sortedJpg env = f0 :: frest := by
    cases hs : sortedJpg env with
    | nil => exact absurd hs (sortedJpg_ne_nil env hne)
    | cons f0 frest => exact ⟨f0, frest, rfl⟩
  rw [hsort] at hfa
  cases hfa with
  | cons hf0 hrest =>
    rename_i i0 irest
    refine ⟨⟨i0, gifPathOf zip_path, irest,
      find_ms_in_filename (basenameStr zip_path), 0, 2⟩,
      ?_, rfl, rfl, rfl, rfl, ?_, sortedJpg_sorted env, sortedJpg_perm env⟩
    · cases hsave : env.save ⟨i0, gifPathOf zip_path, irest,
        find_ms_in_filename (basenameStr zip_path), 0, 2⟩ with
      | error e =>
        simp [process_zip_file, process_zip_inner, hex, htmp, hext, hie,
          hopen, hsave]
      | ok u =>
        simp [process_zip_file, process_zip_inner, hex, htmp, hext, hie,
          hopen, hsave]
    · rw [hsort]
      exact List.Forall₂.cons hf0 hrest

/-- C3, witness: a concrete environment with two images walked out of
order; the single encode call uses the sorted order. -/
theorem encode_call_spec_witness :
    ∃ call : SaveCall Nat,
      (process_zip_file envHappy "a.zip").2.saves = [call] ∧
      call.path = gifPathOf "a.zip" ∧
      call.duration = find_ms_in_filename (basenameStr "a.zip") ∧
      call.loop = 0 ∧
      call.disposal = 2 ∧
      List.Forall₂ (fun f img => envHappy.decode f = Except.ok img)
        (sortedJpg envHappy) (call.anchor :: call.append_images) ∧
      List.Sorted (fun a b => strLe a b = true) (sortedJpg envHappy) ∧
      (sortedJpg envHappy).Perm (jpgFiles envHappy) :=
  encode_call_spec envHappy "a.zip" rfl rfl rfl (by decide)
    (fun f _ => ⟨f.length, rfl⟩)

/-- C6.  If at least one discovered image file fails to decode (output
not yet present, extraction succeeding), processing of the archive
aborts with an error outcome: no encode call is issued, and the message
identifies the first failing file in sorted order (every file before it
decoded) together with its decode error. -/
theorem decode_failure_aborts {α : Type} (env : Env α) (zip_path : String)
    (hex : env.pathExists (gifPathOf zip_path) = false)
    (htmp : env.tmpdir = Except.ok ())
    (hext : env.extract = Except.ok ())
    (hfail : ∃ f ∈ jpgFiles env, ∃ e, env.decode f = Except.error e) :
    (process_zip_file env zip_path).1.status = Status.error ∧
    (process_zip_file env zip_path).2.saves = [] ∧
    ∃ pre f e post,
      sortedJpg env = pre ++ f :: post ∧
      (∀ g ∈ pre, ∃ img, env.decode g = Except.ok img) ∧
      env.decode f = Except.error e ∧
      (process_zip_file env zip_path).1.message =
        "无法处理图像 " ++ f ++ ": " ++ e := by
  have hne : jpgFiles env ≠ [] := by
    obtain ⟨f, hf, -⟩ := hfail
    intro h0
    rw [h0] at hf
    cases hf
  have hie := jpgFiles_isEmpty_false env hne
  have hfail2 : ∃ f ∈ sortedJpg env, ∃ e, env.decode f = Except.error e := by
    obtain ⟨f, hf, e, he⟩ := hfail
    exact ⟨f, (sortedJpg_perm env).mem_iff.mpr hf, e, he⟩
  obtain ⟨pre, f, e, post, heq, hpre, hfe, hopen⟩ :=
    openImages_fail env.decode (sortedJpg env) hfail2
  refine ⟨?_, ?_, pre, f, e, post, heq, hpre, hfe, ?_⟩ <;>
    simp [process_zip_file, process_zip_inner, hex, htmp, hext, hie, hopen]

/-- C6, witness: one extracted JPEG whose decode fails yields the error
outcome naming it, with no encode call. -/
theorem decode_failure_aborts_witness :
    (process_zip_file envBadDecode "a.zip").1.status = Status.error ∧
    (process_zip_file envBadDecode "a.zip").2.saves = [] ∧
    ∃ pre f e post,
      sortedJpg envBadDecode = pre ++ f :: post ∧
      (∀ g ∈ pre, ∃ img, envBadDecode.decode g = Except.ok img) ∧
      envBadDecode.decode f = Except.error e ∧
      (process_zip_file envBadDecode "a.zip").1.message =
        "无法处理图像 " ++ f ++ ": " ++ e :=
  decode_failure_aborts envBadDecode "a.zip" rfl rfl rfl
    ⟨"t/a.jpg", by decide, "bad", rfl⟩

/-- C5, counterexample.  An archive in which an image file is found but
zero images decode successfully (its only file fails to decode) yields
an `error` outcome, not the claimed `warning`: the post-decode
empty-images warning branch is unreachable because a decode failure
returns first. -/
theorem all_fail_not_warning_counterexample :
    jpgFiles envBadDecode = ["t/a.jpg"] ∧
    envBadDecode.decode "t/a.jpg" = Except.error "bad" ∧
    (process_zip_file envBadDecode "a.zip").1.status = Status.error ∧
    Status.error ≠ Status.warning := by
  refine ⟨by decide, rfl, by decide, by decide⟩

/-- C5, amended.  With the output absent and extraction succeeding: an
archive with zero discovered image files yields the warning outcome and
no encode call; an archive with image files found but zero successful
decodes (every discovered file fails to decode) yields an error outcome
(not a warning) and no encode call — the decode failure aborts first,
making the post-decode zero-images warning branch unreachable. -/
theorem no_frames_warning {α : Type} (env : Env α) (zip_path : String)
    (hex : env.pathExists (gifPathOf zip_path) = false)
    (htmp : env.tmpdir = Except.ok ())
    (hext : env.extract = Except.ok ()) :
    (jpgFiles env = [] →
      process_zip_file env zip_path =
        (⟨zip_path, Status.warning, "没有找到JPG文件"⟩, ⟨[], true, []⟩)) ∧
    (jpgFiles env ≠ [] →
      (∀ f ∈ jpgFiles env, ∃ e, env.decode f = Except.error e) →
      (process_zip_file env zip_path).1.status = Status.error ∧
      (process_zip_file env zip_path).2.saves = []) := by
  constructor
  · intro h0
    have hie : (jpgFiles env).isEmpty = true := by
      rw [List.isEmpty_iff]
      exact h0
    simp [process_zip_file, process_zip_inner, hex, htmp, hext, hie]
  · intro hne hall
    have hie := jpgFiles_isEmpty_false env hne
    have hfail2 : ∃ f ∈ sortedJpg env, ∃ e, env.decode f = Except.error e := by
      obtain ⟨f0, frest, hsort⟩ : ∃ f0 frest, sortedJpg env = f0 :: frest := by
        cases hs : sortedJpg env with
        | nil => exact absurd hs (sortedJpg_ne_nil env hne)
        | cons f0 frest => exact ⟨f0, frest, rfl⟩
      have hmem : f0 ∈ sortedJpg env := by
        rw [hsort]
        exact List.mem_cons_self f0 frest
      obtain ⟨e, he⟩ := hall f0 ((sortedJpg_perm env).mem_iff.mp hmem)
      exact ⟨f0, hmem, e, he⟩
    obtain ⟨pre, f, e, post, heq, hpre, hfe, hopen⟩ :=
      openImages_fail env.decode (sortedJpg env) hfail2
    constructor <;>
      simp [process_zip_file, process_zip_inner, hex, htmp, hext, hie, hopen]

/-- C5, witness: an empty extraction yields the warning; a sole failing
decode yields an error with no encode call. -/
theorem no_frames_warning_witness :
    process_zip_file envEmpty "a.zip" =
      (⟨"a.zip", Status.warning, "没有找到JPG文件"⟩, ⟨[], true, []⟩) ∧
    ((process_zip_file envBadDecode "a.zip").1.status = Status.error ∧
      (process_zip_file envBadDecode "a.zip").2.saves = []) :=
  ⟨(no_frames_warning envEmpty "a.zip" rfl rfl rfl).1 rfl,
   (no_frames_warning envBadDecode "a.zip" rfl rfl rfl).2 (by decide)
     (fun f _ => ⟨"bad", rfl⟩)⟩

/-- `os.path.basename` of `d ++ "/" ++ s` is `s` when `s` has no slash. -/
theorem basenameStr_concat (d s : String) (h : ∀ c ∈ s.data, c ≠ '/') :
    basenameStr (d ++ "/" ++ s) = s := by
  apply String.ext
  show ((d ++ "/" ++ s).data.reverse.takeWhile (fun c => c ≠ '/')).reverse = s.data
  have hdd : (d ++ "/" ++ s).data = (d.data ++ ['/']) ++ s.data := by
    rw [String.data_append, String.data_append]
  rw [hdd, List.reverse_append,
    takeWhile_append_all _ s.data.reverse _
      (fun a ha => decide_eq_true (h a (List.mem_reverse.mp ha)))]
  have h2 : (d.data ++ ['/']).reverse.takeWhile (fun c => (c ≠ '/' : Bool)) = [] := by
    rw [List.reverse_append]
    show (('/' :: []) ++ d.data.reverse).takeWhile (fun c => (c ≠ '/' : Bool)) = []
    rw [List.cons_append, List.takeWhile_cons]
    simp
  rw [h2, List.append_nil, List.reverse_reverse]

/-- `os.path.dirname` of `d ++ "/" ++ s` is `d` when `s` has no slash,
`d` is nonempty and `d` does not end in a slash. -/
theorem dirnameStr_concat (d s : String) (h : ∀ c ∈ s.data, c ≠ '/')
    (hd0 : d ≠ "") (hd1 : d.data.getLast? ≠ some '/') :
    dirnameStr (d ++ "/" ++ s) = d := by
  have hdd : (d ++ "/" ++ s).data = (d.data ++ ['/']) ++ s.data := by
    rw [String.data_append, String.data_append]
  have hdne : d.data ≠ [] := fun h0 => hd0 (String.ext h0)
  obtain ⟨c0, rest0, hrev⟩ : ∃ c0 rest0, d.data.reverse = c0 :: rest0 := by
    cases hr : d.data.reverse with
    | nil => exact absurd (List.reverse_eq_nil_iff.mp hr) hdne
    | cons c0 rest0 => exact ⟨c0, rest0, rfl⟩
  have hc0 : c0 ≠ '/' := by
    intro h0
    apply hd1
    rw [← List.head?_reverse, hrev, h0]
    rfl
  have hrh : (d ++ "/" ++ s).data.reverse.dropWhile (fun c => (c ≠ '/' : Bool)) =
      '/' :: d.data.reverse := by
    rw [hdd, List.reverse_append,
      dropWhile_append_all _ s.data.reverse _
        (fun a ha => decide_eq_true (h a (List.mem_reverse.mp ha))),
      List.reverse_append]
    show (('/' :: []) ++ d.data.reverse).dropWhile (fun c => (c ≠ '/' : Bool)) =
      '/' :: d.data.reverse
    rw [List.cons_append, List.dropWhile_cons]
    simp
  have hall : (('/' :: d.data.reverse).all (fun c => (c = '/' : Bool))) = false := by
    refine List.all_eq_false.mpr ⟨c0, ?_, ?_⟩
    · rw [hrev]
      exact List.mem_cons_of_mem '/' (List.mem_cons_self c0 rest0)
    · simp [hc0]
  apply String.ext
  simp only [dirnameStr, hrh, hall]
  show ((('/' :: d.data.reverse).dropWhile (fun c => (c = '/' : Bool))).reverse) = d.data
  rw [List.dropWhile_cons]
  simp only [decide_True, if_true]
  rw [hrev, List.dropWhile_cons]
  have : (decide (c0 = '/')) = false := by simp [hc0]
  rw [this]
  simp only [Bool.false_eq_true, if_false]
  rw [← hrev, List.reverse_reverse]

/-- The `splitext` root of `n ++ ".zip"` is `n` when `n` has a non-dot
character. -/
theorem splitextRootL_concat (n : List Char) (hnd : ∃ c ∈ n, c ≠ '.') :
    splitextRootL (n ++ ('.' :: 'z' :: 'i' :: 'p' :: [])) = n := by
  have hsc : (n ++ ('.' :: 'z' :: 'i' :: 'p' :: [])).reverse.dropWhile
      (fun c => (c ≠ '.' : Bool)) = '.' :: n.reverse := by
    rw [List.reverse_append]
    have hzr : ('.' :: 'z' :: 'i' :: 'p' :: ([] : List Char)).reverse =
        'p' :: 'i' :: 'z' :: '.' :: [] := by decide
    rw [hzr]
    show (('p' :: 'i' :: 'z' :: []) ++ ('.' :: n.reverse)).dropWhile
      (fun c => (c ≠ '.' : Bool)) = '.' :: n.reverse
    rw [dropWhile_append_all _ _ _ (by decide), List.dropWhile_cons]
    simp
  simp only [splitextRootL, hsc]
  have hall : (n.reverse.all (fun c => (c = '.' : Bool))) = false := by
    obtain ⟨c, hc, hcne⟩ := hnd
    exact List.all_eq_false.mpr ⟨c, List.mem_reverse.mpr hc, by simp [hcne]⟩
  rw [hall]
  simp only [Bool.false_eq_true, if_false]
  rw [List.reverse_reverse]

/-- The computed output path for an archive `D/X.zip` (directory `D`
nonempty, not slash-terminated; base name `X` slash-free with some
non-dot character) is `D/X.gif`: same directory, `.zip` replaced by
`.gif`. -/
theorem gifPathOf_concat (d name : String) (hd0 : d ≠ "")
    (hd1 : d.data.getLast? ≠ some '/') (hn0 : ∀ c ∈ name.data, c ≠ '/')
    (hn1 : ∃ c ∈ name.data, c ≠ '.') :
    gifPathOf (d ++ "/" ++ name ++ ".zip") = d ++ "/" ++ name ++ ".gif" := by
  have hassoc : d ++ "/" ++ name ++ ".zip" = d ++ "/" ++ (name ++ ".zip") :=
    String.append_assoc (d ++ "/") name ".zip"
  have hs : ∀ c ∈ (name ++ ".zip").data, c ≠ '/' := by
    rw [String.data_append]
    intro c hc
    rcases List.mem_append.mp hc with hcn | hcz
    · exact hn0 c hcn
    · have : c ∈ ('.' :: 'z' :: 'i' :: 'p' :: []) := hcz
      rcases this with _ | ⟨_, _ | ⟨_, _ | ⟨_, _ | ⟨_, h⟩⟩⟩⟩ <;>
        first | decide | cases h
  rw [hassoc, gifPathOf, basenameStr_concat d (name ++ ".zip") hs,
    dirnameStr_concat d (name ++ ".zip") hs hd0 hd1]
  have hsz : (name ++ ".zip").data = name.data ++ ('.' :: 'z' :: 'i' :: 'p' :: []) := by
    rw [String.data_append]
  rw [hsz, splitextRootL_concat name.data hn1]
  have hmk : String.mk name.data = name := rfl
  rw [hmk, joinPath]
  obtain ⟨c0, rest0, hnd⟩ : ∃ c0 rest0, name.data = c0 :: rest0 := by
    cases hn : name.data with
    | nil =>
      obtain ⟨c, hc, -⟩ := hn1
      rw [hn] at hc
      cases hc
    | cons c0 rest0 => exact ⟨c0, rest0, rfl⟩
  have hc1 : (name ++ ".gif").data.head? = some c0 := by
    rw [String.data_append, hnd]
    rfl
  rw [if_neg, if_neg]
  · exact (String.append_assoc (d ++ "/") name ".gif").symm
  · intro hor
    rcases hor with h | h
    · exact hd0 h
    · exact hd1 h
  · intro hh
    rw [hc1] at hh
    injection hh with hh
    exact hn0 c0 (by rw [hnd]; exact List.mem_cons_self c0 rest0) hh

/-- C4, counterexample.  The "second run yields all-skip outcomes"
consequence fails for archives without an existing output: an archive
whose extraction contains no images produces a warning and writes
nothing, so the directory is unchanged, and re-processing it under the
same unchanged environment produces the warning again — not a skip. -/
theorem rerun_not_all_skip_counterexample :
    (process_zip_file envEmpty "a.zip").2.saves = [] ∧
    (process_zip_file envEmpty "a.zip").1.status = Status.warning ∧
    Status.warning ≠ Status.skip := by
  refine ⟨by decide, by decide, by decide⟩

/-- C4, amended.  For every archive path whose computed output path
(same directory, `.zip` replaced by `.gif`) already exists,
`process_zip_file` returns the skip outcome immediately: no extraction,
no decode attempt, no encode call.  Consequently, in a rerun in which
every archive's output exists (as after a fully successful first run),
the batch counts every archive as skipped, prints no per-item line and
issues no encode call; archives without an existing output (first-run
warnings or errors) are re-processed rather than skipped. -/
theorem skip_when_gif_exists {α : Type} (env : Env α) (zip_path : String)
    (envOf : String → Env α) (zips order : List String) (d name : String) :
    (env.pathExists (gifPathOf zip_path) = true →
      process_zip_file env zip_path =
        (⟨zip_path, Status.skip, "对应的GIF已存在"⟩, ⟨[], false, []⟩)) ∧
    (d ≠ "" → d.data.getLast? ≠ some '/' → (∀ c ∈ name.data, c ≠ '/') →
      (∃ c ∈ name.data, c ≠ '.') →
      gifPathOf (d ++ "/" ++ name ++ ".zip") = d ++ "/" ++ name ++ ".gif") ∧
    (order.Perm zips →
      (∀ z ∈ order, (envOf z).pathExists (gifPathOf z) = true) →
      (drainLoop ⟨0, 0, 0⟩ (runAll envOf order)).1 = ⟨0, zips.length, 0⟩ ∧
      (drainLoop ⟨0, 0, 0⟩ (runAll envOf order)).2 = [] ∧
      ∀ z ∈ order, (process_zip_file (envOf z) z).2 = ⟨[], false, []⟩) := by
  refine ⟨?_, ?_, ?_⟩
  · intro hex
    simp [process_zip_file, process_zip_inner, hex]
  · intro hd0 hd1 hn0 hn1
    exact gifPathOf_concat d name hd0 hd1 hn0 hn1
  · intro hperm hall
    have hone : ∀ z ∈ order, process_zip_file (envOf z) z =
        (⟨z, Status.skip, "对应的GIF已存在"⟩, ⟨[], false, []⟩) := by
      intro z hz
      simp [process_zip_file, process_zip_inner, hall z hz]
    have hmem : ∀ pr ∈ runAll envOf order,
        pr.2 = Except.ok ⟨pr.1, Status.skip, "对应的GIF已存在"⟩ := by
      intro pr hpr
      obtain ⟨z, hz, rfl⟩ := List.mem_map.mp hpr
      show Except.ok (process_zip_file (envOf z) z).1 = _
      rw [hone z hz]
    have htally := drainLoop_spec (runAll envOf order) ⟨0, 0, 0⟩
    refine ⟨?_, ?_, ?_⟩
    · rw [htally]
      have h1 : List.countP (fun pr =>
          match pr.2 with
          | Except.ok o => decide (o.status = Status.success)
          | Except.error _ => false) (runAll envOf order) = 0 :=
        List.countP_eq_zero.mpr (fun pr hpr => by simp [hmem pr hpr])
      have h2 : List.countP (fun pr =>
          match pr.2 with
          | Except.ok o => decide (o.status = Status.skip)
          | Except.error _ => false) (runAll envOf order) =
          (runAll envOf order).length :=
        List.countP_eq_length.mpr (fun pr hpr => by simp [hmem pr hpr])
      have h3 : List.countP (fun pr =>
          match pr.2 with
          | Except.ok o => decide (o.status = Status.error)
          | Except.error _ => true) (runAll envOf order) = 0 :=
        List.countP_eq_zero.mpr (fun pr hpr => by simp [hmem pr hpr])
      have hlen : (runAll envOf order).length = zips.length := by
        rw [runAll, List.length_map]
        exact hperm.length_eq
      simp only [h1, h2, h3, hlen]
      simp
    · rw [htally]
      exact List.filterMap_eq_nil_iff.mpr
        (fun pr hpr => by simp [lineFor, hmem pr hpr])
    · intro z hz
      rw [hone z hz]
  
/-- C4, witness: an environment in which the output exists skips with an
empty trace; `gifPathOf` replaces the extension; a batch over one such
archive tallies one skip, prints nothing and issues no encode call. -/
theorem skip_when_gif_exists_witness :
    process_zip_file envGifThere "a.zip" =
      (⟨"a.zip", Status.skip, "对应的GIF已存在"⟩, ⟨[], false, []⟩) ∧
    gifPathOf ("d" ++ "/" ++ "x" ++ ".zip") = "d" ++ "/" ++ "x" ++ ".gif" ∧
    ((drainLoop ⟨0, 0, 0⟩ (runAll (fun _ => envGifThere) ["a.zip"])).1 =
        ⟨0, (["a.zip"] : List String).length, 0⟩ ∧
      (drainLoop ⟨0, 0, 0⟩ (runAll (fun _ => envGifThere) ["a.zip"])).2 = [] ∧
      ∀ z ∈ ["a.zip"],
        (process_zip_file ((fun _ => envGifThere) z) z).2 = ⟨[], false, []⟩) :=
  ⟨(skip_when_gif_exists envGifThere "a.zip" (fun _ => envGifThere)
      ["a.zip"] ["a.zip"] "d" "x").1 rfl,
   (skip_when_gif_exists envGifThere "a.zip" (fun _ => envGifThere)
      ["a.zip"] ["a.zip"] "d" "x").2.1
      (by decide) (by decide) (by decide) (by decide),
   (skip_when_gif_exists envGifThere "a.zip" (fun _ => envGifThere)
      ["a.zip"] ["a.zip"] "d" "x").2.2
      (List.Perm.refl _) (fun z hz => rfl)⟩
